import Mathlib

/-!
Verification of the post-earnings-announcement-drift strategy script
(`main.py`) against its natural-language specification.

The shallow embedding below translates the state and the per-event steps of
the `PostEarningsAnnouncement` algorithm into pure Lean functions:

* dates are day numbers (`Int`); the pandas `BDay` business-day offset is
  modelled by `addBDay`, which skips weekends (`d % 7 ∈ {5, 6}`);
* `LoadEarningsData` (the earnings-feed parser) becomes a fold over the raw
  feed records that threads the partially built dictionary, so that the
  effect of a mid-loop parse failure on the mutable state is visible;
* `DaysBefore` (admission of new managed positions) and `OnData` (the daily
  lifecycle tick) become functions from the relevant inputs — current date,
  broker-reported security state, managed-position list — to the list of
  emitted order instructions plus the updated managed-position list;
* the momentum selection tail of `CoarseSelectionFunction` becomes
  `selectTopDecile`, with Python's stable `sorted` modelled by a stable
  insertion sort (any two stable sorts by the same key agree);
* the `data_tools.SymbolData` rolling tracker, whose source file is not in
  the repository snapshot, is modelled from the spec.
-/

/-- Tickers / symbols: opaque identifiers compared by equality. -/
abbrev Ticker := String

/-- Dates as integer day numbers.  `d % 7 < 5` marks a business day, so each
week is five business days followed by a weekend, matching the pandas `BDay`
calendar with an arbitrary epoch on a Monday. -/
abbrev Date := Int

/-- A day number falls on a business day (not Saturday `5` / Sunday `6`). -/
def isBusinessDay (d : Date) : Bool := d % 7 < 5

/-- The first business day strictly after `d`. -/
def nextBusinessDay (d : Date) : Date :=
  if (d + 1) % 7 < 5 then d + 1
  else if (d + 2) % 7 < 5 then d + 2
  else d + 3

/-- Roll `d` forward to the first business day on or after `d`
(pandas `BDay` anchoring behaviour). -/
def rollForward (d : Date) : Date :=
  if isBusinessDay d then d else nextBusinessDay d

/-- `d + BDay(n)` of pandas: roll onto a business day, then step `n`
business days forward. -/
def addBDay (d : Date) (n : ℕ) : Date :=
  nextBusinessDay^[n] (rollForward d)

theorem lt_nextBusinessDay (d : Date) : d < nextBusinessDay d := by
  unfold nextBusinessDay
  split
  · linarith
  · split
    · linarith
    · linarith

theorem le_rollForward (d : Date) : d ≤ rollForward d := by
  unfold rollForward
  split
  · exact le_refl d
  · exact le_of_lt (lt_nextBusinessDay d)

theorem le_iterate_nextBusinessDay (k : ℕ) (d : Date) :
    d ≤ nextBusinessDay^[k] d := by
  induction k generalizing d with
  | zero => simp
  | succ k ih =>
      rw [Function.iterate_succ_apply]
      exact le_trans (le_of_lt (lt_nextBusinessDay d)) (ih (nextBusinessDay d))

/-- Business-day addition is monotone in the number of days added. -/
theorem addBDay_mono (d : Date) {m n : ℕ} (h : m ≤ n) :
    addBDay d m ≤ addBDay d n := by
  obtain ⟨k, rfl⟩ := Nat.exists_eq_add_of_le h
  unfold addBDay
  rw [Nat.add_comm m k, Function.iterate_add_apply]
  exact le_iterate_nextBusinessDay k _

/-! ## Earnings calendar index (`LoadEarningsData`, lines 55–87) -/

/-- One object of the downloaded earnings JSON.  `date` is `none` when the
`date` field is missing or `strptime` cannot parse it; `stocks` is `none`
when the `stocks` field is missing.  Either failure raises an exception in
the Python loop (`FeedFormatError` in the spec's vocabulary). -/
structure RawRecord where
  date : Option Date
  stocks : Option (List Ticker)
deriving DecidableEq

/-- A raw record is malformed when its parse would raise. -/
def recordMalformed (r : RawRecord) : Bool := r.date.isNone || r.stocks.isNone

/-- The earnings state owned by the algorithm: `earnings` models the
`self.earnings` dict (`none` = key absent) and `universe` models
`self.earnings_universe` (a Python set, hence a `Finset`). -/
structure EarningsIndex where
  earnings : Date → Option (List Ticker)
  earningsUniverse : Finset Ticker

/-- The inner `for stock_data in obj['stocks']` loop: appends each ticker to
the list stored at key `d` and adds it to the accumulating set. -/
def appendTickers (em : Date → Option (List Ticker)) (d : Date)
    (es : Finset Ticker) : List Ticker → (Date → Option (List Ticker)) × Finset Ticker
  | [] => (em, es)
  | t :: ts =>
      appendTickers (Function.update em d (some ((em d).getD [] ++ [t]))) d
        (insert t es) ts

/-- The record loop of `LoadEarningsData`.  Threads the partially mutated
dictionary and set; the `Bool` is `false` when a record failed to parse, in
which case the state built so far is returned as-is (the Python exception
leaves `self.earnings` partially rebuilt). -/
def loadLoop (em : Date → Option (List Ticker)) (es : Finset Ticker) :
    List RawRecord → (Date → Option (List Ticker)) × Finset Ticker × Bool
  | [] => (em, es, true)
  | r :: rs =>
      match r.date with
      | none => (em, es, false)
      | some d =>
          let em1 := Function.update em d (some [])
          match r.stocks with
          | none => (em1, es, false)
          | some ts =>
              let p := appendTickers em1 d es ts
              loadLoop p.1 p.2 rs

/-- `LoadEarningsData`: resets `self.earnings` to `{}`, starts a fresh local
`earnings_set`, then processes every record.  Only on full success is
`self.earnings_universe` reassigned; on failure the old universe survives
but the dictionary keeps whatever the loop built before raising. -/
def LoadEarningsData (st : EarningsIndex) (feed : List RawRecord) : EarningsIndex :=
  let r := loadLoop (fun _ => none) ∅ feed
  if r.2.2 then ⟨r.1, r.2.1⟩ else ⟨r.1, st.earningsUniverse⟩

/-- `instruments_on(date)`: the tickers announced on `d` (empty when the
date is unknown to the index). -/
def instruments_on (st : EarningsIndex) (d : Date) : List Ticker :=
  (st.earnings d).getD []

/-- `eligible_universe()`: the earnings-eligible universe
(`self.earnings_universe`). -/
def eligible_universe (st : EarningsIndex) : Finset Ticker := st.earningsUniverse

theorem appendTickers_eq (d : Date) (ts : List Ticker) :
    ∀ (em : Date → Option (List Ticker)) (es : Finset Ticker) (l : List Ticker),
      em d = some l →
      appendTickers em d es ts
        = (Function.update em d (some (l ++ ts)), es ∪ ts.toFinset) := by
  induction ts with
  | nil =>
      intro em es l hl
      simp only [appendTickers, List.append_nil, List.toFinset_nil, Finset.union_empty]
      rw [← hl, Function.update_eq_self]
  | cons t ts ih =>
      intro em es l hl
      rw [appendTickers, hl]
      simp only [Option.getD_some]
      rw [ih _ _ (l ++ [t]) (by rw [Function.update_same])]
      rw [Function.update_idem]
      rw [List.append_assoc, List.singleton_append, List.toFinset_cons,
        Finset.insert_union, Finset.union_insert]

/-- A feed containing a malformed record makes the load loop fail. -/
theorem loadLoop_fails_of_malformed :
    ∀ (feed : List RawRecord) (em : Date → Option (List Ticker)) (es : Finset Ticker),
      (∃ r ∈ feed, recordMalformed r = true) → (loadLoop em es feed).2.2 = false := by
  intro feed
  induction feed with
  | nil => intro em es h; simp at h
  | cons r rs ih =>
      intro em es h
      rcases h with ⟨r', hr', hmal⟩
      rcases List.mem_cons.mp hr' with h1 | h2
      · subst h1
        unfold recordMalformed at hmal
        cases hd : r'.date with
        | none => simp [loadLoop, hd]
        | some d =>
            cases hs : r'.stocks with
            | none => simp [loadLoop, hd, hs]
            | some ts => simp [hd, hs, Option.isNone] at hmal
      · cases hd : r.date with
        | none => simp [loadLoop, hd]
        | some d =>
            cases hs : r.stocks with
            | none => simp [loadLoop, hd, hs]
            | some ts =>
                simp only [loadLoop, hd, hs]
                exact ih _ _ ⟨r', h2, hmal⟩

/-! ## Configuration, orders and managed positions -/

/-- The algorithm's configuration surface (`Initialize`, lines 24–37, plus
the three externally supplied business-day offsets). -/
structure AlgoConfig where
  quantile : ℕ := 10
  leverage : ℚ := 3
  free_margin : ℚ := 1
  managed_symbols_size : ℕ := 30
  buyDaysBefore : ℕ
  sellDaysAfter : ℕ
  switchDaysAfter : ℕ

/-- Target weight of a long entry:
`(self.leverage - self.free_margin) / self.managed_symbols_size` (line 158). -/
def entryWeight (cfg : AlgoConfig) : ℚ :=
  (cfg.leverage - cfg.free_margin) / (cfg.managed_symbols_size : ℚ)

/-- Target weight of the long→short flip:
`-1*(self.leverage - self.free_margin) / self.managed_symbols_size` (line 174). -/
def switchWeight (cfg : AlgoConfig) : ℚ :=
  -1 * (cfg.leverage - cfg.free_margin) / (cfg.managed_symbols_size : ℚ)

/-- An order instruction sent to the broker host. -/
inductive Instruction where
  | setHoldings (symbol : Ticker) (weight : ℚ)
  | liquidate (symbol : Ticker)
deriving DecidableEq

/-- Broker-reported direction of a holding (`Portfolio[symbol].IsLong` is
`dir = long`). -/
inductive Dir where
  | long
  | short
  | flat
deriving DecidableEq

/-- Broker-reported per-security state read in `DaysBefore` (line 156–157):
`Securities[symbol].Invested`, `.Price`, `.IsTradable`. -/
structure SecurityInfo where
  invested : Bool
  price : ℚ
  tradable : Bool

/-- `data_tools.ManagedSymbol` as constructed at line 162: a symbol plus its
switch and liquidation dates. -/
structure ManagedSymbol where
  symbol : Ticker
  date_to_switch : Date
  date_to_liquidate : Date
deriving DecidableEq

/-- The broker's effect of a filled instruction on the reported direction:
a target-weight order leaves the position long/short per the weight's sign,
a liquidation leaves it flat.  Modelled from the spec: the brokerage host is
an external collaborator ("once flipped, broker position direction is
short"). -/
def applyInstruction (pf : Ticker → Dir) : Instruction → (Ticker → Dir)
  | .setHoldings s w =>
      Function.update pf s (if w < 0 then Dir.short else if 0 < w then Dir.long else Dir.flat)
  | .liquidate s => Function.update pf s Dir.flat

/-! ## `DaysBefore` (lines 140–163): admission of new managed positions -/

/-- `earnings_date = (self.Time + BDay(self.buyDaysBefore)).date()` (line 142). -/
def earningsDateFor (cfg : AlgoConfig) (t : Date) : Date :=
  addBDay t cfg.buyDaysBefore

/-- `date_to_liquidate = (earnings_date + BDay(self.sellDaysAfter)).date()` (line 143). -/
def dateToLiquidate (cfg : AlgoConfig) (t : Date) : Date :=
  addBDay (earningsDateFor cfg t) cfg.sellDaysAfter

/-- `date_to_switch = (earnings_date + BDay(self.switchDaysAfter)).date()` (line 144). -/
def dateToSwitch (cfg : AlgoConfig) (t : Date) : Date :=
  addBDay (earningsDateFor cfg t) cfg.switchDaysAfter

/-- The `for symbol in self.selected_symbols` loop of `DaysBefore`
(lines 150–163): skip symbols without earnings on `earnings_date`; admit a
symbol when the managed list is below capacity and the broker reports it as
not invested, non-zero-priced and tradable.  The accumulator carries the
emitted instructions and the live `self.managed_symbols` list (whose length
the capacity guard re-reads on every iteration). -/
def admitLoop (cfg : AlgoConfig) (tickers : List Ticker) (sec : Ticker → SecurityInfo)
    (dts dtl : Date) (acc : List Instruction × List ManagedSymbol) :
    List Ticker → List Instruction × List ManagedSymbol
  | [] => acc
  | sym :: rest =>
      if sym ∉ tickers then admitLoop cfg tickers sec dts dtl acc rest
      else if acc.2.length < cfg.managed_symbols_size ∧ (sec sym).invested = false
          ∧ (sec sym).price ≠ 0 ∧ (sec sym).tradable = true then
        admitLoop cfg tickers sec dts dtl
          (acc.1 ++ [Instruction.setHoldings sym (entryWeight cfg)],
            acc.2 ++ [⟨sym, dts, dtl⟩]) rest
      else admitLoop cfg tickers sec dts dtl acc rest

/-- `DaysBefore`: returns early when `earnings_date` is not a key of
`self.earnings`; otherwise runs the admission loop over
`self.selected_symbols`. -/
def DaysBefore (cfg : AlgoConfig) (t : Date) (idx : EarningsIndex)
    (selected : List Ticker) (sec : Ticker → SecurityInfo)
    (managed : List ManagedSymbol) : List Instruction × List ManagedSymbol :=
  match idx.earnings (earningsDateFor cfg t) with
  | none => ([], managed)
  | some tickers =>
      admitLoop cfg tickers sec (dateToSwitch cfg t) (dateToLiquidate cfg t)
        ([], managed) selected

/-! ## `OnData` (lines 165–182): the daily lifecycle tick -/

/-- The `for managed_symbol in self.managed_symbols` loop of `OnData`
(lines 170–178).  The accumulator carries the emitted instructions and the
`managed_symbols_to_delete` list. -/
def lifecycleLoop (cfg : AlgoConfig) (curr : Date) (pf : Ticker → Dir)
    (acc : List Instruction × List ManagedSymbol) :
    List ManagedSymbol → List Instruction × List ManagedSymbol
  | [] => acc
  | ms :: rest =>
      if ms.date_to_switch ≤ curr ∧ curr < ms.date_to_liquidate
          ∧ pf ms.symbol = Dir.long then
        lifecycleLoop cfg curr pf
          (acc.1 ++ [Instruction.setHoldings ms.symbol (switchWeight cfg)], acc.2) rest
      else if ms.date_to_liquidate ≤ curr then
        lifecycleLoop cfg curr pf
          (acc.1 ++ [Instruction.liquidate ms.symbol], acc.2 ++ [ms]) rest
      else lifecycleLoop cfg curr pf acc rest

/-- `OnData`: run the lifecycle loop, then remove every liquidated position
from `self.managed_symbols` (lines 181–182, `list.remove` = erase the first
occurrence). -/
def OnDataStep (cfg : AlgoConfig) (curr : Date) (pf : Ticker → Dir)
    (managed : List ManagedSymbol) : List Instruction × List ManagedSymbol :=
  let r := lifecycleLoop cfg curr pf ([], []) managed
  (r.1, r.2.foldl (fun l m => l.erase m) managed)

/-- One scheduled event touching the managed-position list: a `DaysBefore`
admission pass (with the ambient index, selection and broker state as of
that tick) or an `OnData` lifecycle pass. -/
inductive Event where
  | daysBefore (t : Date) (idx : EarningsIndex) (selected : List Ticker)
      (sec : Ticker → SecurityInfo)
  | onData (t : Date) (pf : Ticker → Dir)

/-- Effect of one event on `self.managed_symbols`. -/
def runEvent (cfg : AlgoConfig) (managed : List ManagedSymbol) :
    Event → List ManagedSymbol
  | .daysBefore t idx selected sec => (DaysBefore cfg t idx selected sec managed).2
  | .onData t pf => (OnDataStep cfg t pf managed).2

/-- The managed-position list after a sequence of events, starting from the
empty list set up in `Initialize` (line 38). -/
def runEvents (cfg : AlgoConfig) (events : List Event) : List ManagedSymbol :=
  events.foldl (runEvent cfg) []

/-! ## Momentum ranking (`CoarseSelectionFunction`, lines 94–138) -/

/-- Insert one scored entry into an already sorted list, after every entry
with a strictly smaller score and before the first entry whose score is at
least as large. -/
def insertByScore (x : Ticker × ℚ) : List (Ticker × ℚ) → List (Ticker × ℚ)
  | [] => [x]
  | y :: ys => if y.2 < x.2 then y :: insertByScore x ys else x :: y :: ys

/-- Stable ascending-by-score sort, modelling Python's stable
`sorted(momentum.items(), key=lambda item: item[1])` (line 134): a stable
sort's output is determined by the key order plus the input order, so any
stable sort realises it. -/
def sortByScore : List (Ticker × ℚ) → List (Ticker × ℚ)
  | [] => []
  | x :: xs => insertByScore x (sortByScore xs)

/-- Python's `l[-q:]` slice on a list: the whole list when `q = 0`
(`l[0:]`), otherwise the last `min q (length l)` elements. -/
def lastSlice (l : List Ticker) (q : ℕ) : List Ticker :=
  if q = 0 then l else l.drop (l.length - q)

/-- The selection tail of `CoarseSelectionFunction` (lines 129–136): empty
when fewer scores than `self.quantile`, otherwise the last
`int(len(momentum) / self.quantile)` symbols of the score-sorted list. -/
def selectTopDecile (quantile : ℕ) (momentum : List (Ticker × ℚ)) : List Ticker :=
  if momentum.length < quantile then []
  else
    let bucket := momentum.length / quantile
    let sorted_by_mom := (sortByScore momentum).map Prod.fst
    lastSlice sorted_by_mom bucket

/-- Written from the spec's words (§4.2 Momentum Ranker): compute
`bucket_size = floor(count(scores) / quantile_count)`; return empty when
`count(scores) < quantile_count`; sort ascending by score with ties in
stable input order; return the last `bucket_size` instruments. -/
def select_top_decile_spec (scores : List (Ticker × ℚ)) (quantile_count : ℕ) :
    List Ticker :=
  if scores.length < quantile_count then []
  else
    let bucket_size := scores.length / quantile_count
    ((sortByScore scores).map Prod.fst).drop (scores.length - bucket_size)

/-! ## Rolling performance tracker (`data_tools.SymbolData`) -/

/-- Modelled from the spec: `data_tools.SymbolData`, whose source file is
not part of this repository snapshot (§4.1 Rolling Performance Tracker):
a fixed-capacity window of closing prices with ring-buffer eviction. -/
structure SymbolData where
  period : ℕ
  window : List ℚ

/-- Modelled from the spec: `update(price)` appends and evicts the oldest
price when the window exceeds its capacity. -/
def SymbolData.update (sd : SymbolData) (price : ℚ) : SymbolData :=
  let w := sd.window ++ [price]
  { sd with window := if sd.period < w.length then w.drop (w.length - sd.period) else w }

/-- Modelled from the spec: `is_ready()` iff the window is full. -/
def SymbolData.is_ready (sd : SymbolData) : Bool :=
  sd.window.length == sd.period

/-- The tracker's failure modes (§7 of the spec). -/
inductive TrackerError where
  | NotReadyError
  | DivisionByZeroError
deriving DecidableEq

/-- Modelled from the spec: `performance()` fails with `NotReadyError`
before `is_ready()`, computes `(last - first) / first`, and fails with
`DivisionByZeroError` when `first == 0`. -/
def SymbolData.performance (sd : SymbolData) : Except TrackerError ℚ :=
  if sd.is_ready then
    let first := sd.window.head?.getD 0
    let last := sd.window.getLast?.getD 0
    if first = 0 then Except.error TrackerError.DivisionByZeroError
    else Except.ok ((last - first) / first)
  else Except.error TrackerError.NotReadyError

/-- The momentum snapshot of line 127: the dict comprehension
`{symbol: self.data[symbol].performance() for symbol in selected if
self.data[symbol].is_ready()}` — the `is_ready` filter is evaluated before
`performance` is called. -/
def buildMomentum (data : Ticker → SymbolData) (selected : List Ticker) :
    List (Ticker × Except TrackerError ℚ) :=
  (selected.filter (fun s => (data s).is_ready)).map (fun s => (s, (data s).performance))

theorem insertByScore_perm (x : Ticker × ℚ) (l : List (Ticker × ℚ)) :
    List.Perm (insertByScore x l) (x :: l) := by
  induction l with
  | nil => simp [insertByScore]
  | cons y ys ih =>
      unfold insertByScore
      split
      · exact (ih.cons y).trans (List.Perm.swap x y ys)
      · exact List.Perm.refl _

theorem sortByScore_perm (l : List (Ticker × ℚ)) : List.Perm (sortByScore l) l := by
  induction l with
  | nil => exact List.Perm.refl _
  | cons x xs ih => exact (insertByScore_perm x _).trans (ih.cons x)

theorem insertByScore_pairwise (x : Ticker × ℚ) (l : List (Ticker × ℚ))
    (h : List.Pairwise (fun p q => p.2 ≤ q.2) l) :
    List.Pairwise (fun p q => p.2 ≤ q.2) (insertByScore x l) := by
  induction l with
  | nil => simp [insertByScore]
  | cons y ys ih =>
      rw [List.pairwise_cons] at h
      unfold insertByScore
      split
      · rename_i hlt
        rw [List.pairwise_cons]
        refine ⟨?_, ih h.2⟩
        intro z hz
        rcases List.mem_cons.mp ((insertByScore_perm x ys).mem_iff.mp hz) with rfl | hz'
        · exact le_of_lt hlt
        · exact h.1 z hz'
      · rename_i hnlt
        rw [List.pairwise_cons]
        refine ⟨?_, List.pairwise_cons.mpr h⟩
        intro z hz
        rcases List.mem_cons.mp hz with rfl | hz'
        · exact le_of_not_lt hnlt
        · exact le_trans (le_of_not_lt hnlt) (h.1 z hz')

/-- The output of `sortByScore` is ascending in the score component. -/
theorem sortByScore_pairwise (l : List (Ticker × ℚ)) :
    List.Pairwise (fun p q => p.2 ≤ q.2) (sortByScore l) := by
  induction l with
  | nil => simp [sortByScore]
  | cons x xs ih => exact insertByScore_pairwise x _ ih

theorem insertByScore_filter_eq (x : Ticker × ℚ) (c : ℚ) (hx : x.2 = c) :
    ∀ l : List (Ticker × ℚ),
      (insertByScore x l).filter (fun p => decide (p.2 = c))
        = x :: l.filter (fun p => decide (p.2 = c)) := by
  intro l
  induction l with
  | nil => simp [insertByScore, List.filter_cons, hx]
  | cons y ys ih =>
      unfold insertByScore
      split
      · rename_i hlt
        have hyne : ¬ y.2 = c := by
          intro hc
          rw [hc, hx] at hlt
          exact lt_irrefl c hlt
        simp [List.filter_cons, hyne, ih]
      · simp [List.filter_cons, hx]

theorem insertByScore_filter_ne (x : Ticker × ℚ) (c : ℚ) (hx : ¬ x.2 = c) :
    ∀ l : List (Ticker × ℚ),
      (insertByScore x l).filter (fun p => decide (p.2 = c))
        = l.filter (fun p => decide (p.2 = c)) := by
  intro l
  induction l with
  | nil => simp [insertByScore, List.filter_cons, hx]
  | cons y ys ih =>
      unfold insertByScore
      split
      · simp only [List.filter_cons, ih]
      · simp [List.filter_cons, hx]

/-- Stability of `sortByScore`: within each score class the sorted output
keeps the original input order. -/
theorem sortByScore_stable (l : List (Ticker × ℚ)) (c : ℚ) :
    (sortByScore l).filter (fun p => decide (p.2 = c))
      = l.filter (fun p => decide (p.2 = c)) := by
  induction l with
  | nil => simp [sortByScore]
  | cons x xs ih =>
      unfold sortByScore
      by_cases hx : x.2 = c
      · rw [insertByScore_filter_eq x c hx, ih]
        simp [List.filter_cons, hx]
      · rw [insertByScore_filter_ne x c hx, ih]
        simp [List.filter_cons, hx]

/-! ## Helper lemmas about the admission and lifecycle loops -/

theorem admitLoop_length_le (cfg : AlgoConfig) (tickers : List Ticker)
    (sec : Ticker → SecurityInfo) (dts dtl : Date) :
    ∀ (sel : List Ticker) (acc : List Instruction × List ManagedSymbol),
      acc.2.length ≤ cfg.managed_symbols_size →
      (admitLoop cfg tickers sec dts dtl acc sel).2.length ≤ cfg.managed_symbols_size := by
  intro sel
  induction sel with
  | nil => intro acc h; exact h
  | cons sym rest ih =>
      intro acc h
      unfold admitLoop
      split
      · exact ih acc h
      · split
        · rename_i hcond
          refine ih _ ?_
          have hlt := hcond.1
          simp only [List.length_append, List.length_singleton]
          exact hlt
        · exact ih acc h

theorem admitLoop_at_capacity (cfg : AlgoConfig) (tickers : List Ticker)
    (sec : Ticker → SecurityInfo) (dts dtl : Date) :
    ∀ (sel : List Ticker) (acc : List Instruction × List ManagedSymbol),
      acc.2.length = cfg.managed_symbols_size →
      admitLoop cfg tickers sec dts dtl acc sel = acc := by
  intro sel
  induction sel with
  | nil => intro acc _; rfl
  | cons sym rest ih =>
      intro acc h
      unfold admitLoop
      split
      · exact ih acc h
      · split
        · rename_i hcond
          exact absurd (h ▸ hcond.1) (lt_irrefl _)
        · exact ih acc h

theorem admitLoop_mem_managed (cfg : AlgoConfig) (tickers : List Ticker)
    (sec : Ticker → SecurityInfo) (dts dtl : Date) :
    ∀ (sel : List Ticker) (acc : List Instruction × List ManagedSymbol)
      (x : ManagedSymbol), x ∈ (admitLoop cfg tickers sec dts dtl acc sel).2 →
      x ∈ acc.2 ∨ (x.date_to_switch = dts ∧ x.date_to_liquidate = dtl
        ∧ (sec x.symbol).invested = false) := by
  intro sel
  induction sel with
  | nil => intro acc x hx; exact Or.inl hx
  | cons sym rest ih =>
      intro acc x hx
      unfold admitLoop at hx
      split at hx
      · exact ih acc x hx
      · split at hx
        · rename_i hcond
          rcases ih _ x hx with hmem | hnew
          · rcases List.mem_append.mp hmem with hold | hone
            · exact Or.inl hold
            · rcases List.mem_singleton.mp hone with rfl
              exact Or.inr ⟨rfl, rfl, hcond.2.1⟩
          · exact Or.inr hnew
        · exact ih acc x hx

theorem admitLoop_mem_instr (cfg : AlgoConfig) (tickers : List Ticker)
    (sec : Ticker → SecurityInfo) (dts dtl : Date) :
    ∀ (sel : List Ticker) (acc : List Instruction × List ManagedSymbol)
      (i : Instruction), i ∈ (admitLoop cfg tickers sec dts dtl acc sel).1 →
      i ∈ acc.1 ∨ ∃ s, i = Instruction.setHoldings s (entryWeight cfg)
        ∧ (sec s).invested = false := by
  intro sel
  induction sel with
  | nil => intro acc i hi; exact Or.inl hi
  | cons sym rest ih =>
      intro acc i hi
      unfold admitLoop at hi
      split at hi
      · exact ih acc i hi
      · split at hi
        · rename_i hcond
          rcases ih _ i hi with hmem | hnew
          · rcases List.mem_append.mp hmem with hold | hone
            · exact Or.inl hold
            · rcases List.mem_singleton.mp hone with rfl
              exact Or.inr ⟨sym, rfl, hcond.2.1⟩
          · exact Or.inr hnew
        · exact ih acc i hi

theorem DaysBefore_length_le (cfg : AlgoConfig) (t : Date) (idx : EarningsIndex)
    (selected : List Ticker) (sec : Ticker → SecurityInfo)
    (managed : List ManagedSymbol)
    (h : managed.length ≤ cfg.managed_symbols_size) :
    (DaysBefore cfg t idx selected sec managed).2.length ≤ cfg.managed_symbols_size := by
  unfold DaysBefore
  cases idx.earnings (earningsDateFor cfg t) with
  | none => exact h
  | some tickers => exact admitLoop_length_le cfg tickers sec _ _ selected ([], managed) h

theorem foldl_erase_length_le (ds : List ManagedSymbol) :
    ∀ l : List ManagedSymbol,
      (ds.foldl (fun l m => l.erase m) l).length ≤ l.length := by
  induction ds with
  | nil => intro l; exact le_refl _
  | cons d ds ih =>
      intro l
      exact le_trans (ih (l.erase d)) (List.length_erase_le d l)

theorem OnDataStep_length_le (cfg : AlgoConfig) (curr : Date) (pf : Ticker → Dir)
    (managed : List ManagedSymbol) :
    (OnDataStep cfg curr pf managed).2.length ≤ managed.length :=
  foldl_erase_length_le _ managed

theorem runEvent_length_le (cfg : AlgoConfig) (managed : List ManagedSymbol)
    (e : Event) (h : managed.length ≤ cfg.managed_symbols_size) :
    (runEvent cfg managed e).length ≤ cfg.managed_symbols_size := by
  cases e with
  | daysBefore t idx selected sec => exact DaysBefore_length_le cfg t idx selected sec managed h
  | onData t pf => exact le_trans (OnDataStep_length_le cfg t pf managed) h

theorem foldl_runEvent_length_le (cfg : AlgoConfig) :
    ∀ (events : List Event) (managed : List ManagedSymbol),
      managed.length ≤ cfg.managed_symbols_size →
      (events.foldl (runEvent cfg) managed).length ≤ cfg.managed_symbols_size := by
  intro events
  induction events with
  | nil => intro managed h; exact h
  | cons e es ih => intro managed h; exact ih _ (runEvent_length_le cfg managed e h)

/-- `OnData` on a one-element managed list, reduced to its three outcomes. -/
theorem OnDataStep_singleton (cfg : AlgoConfig) (curr : Date) (pf : Ticker → Dir)
    (ms : ManagedSymbol) :
    OnDataStep cfg curr pf [ms]
      = if ms.date_to_switch ≤ curr ∧ curr < ms.date_to_liquidate
            ∧ pf ms.symbol = Dir.long
        then ([Instruction.setHoldings ms.symbol (switchWeight cfg)], [ms])
        else if ms.date_to_liquidate ≤ curr then ([Instruction.liquidate ms.symbol], [])
        else ([], [ms]) := by
  unfold OnDataStep
  simp only [lifecycleLoop]
  split
  · simp [lifecycleLoop]
  · split
    · simp [lifecycleLoop, List.erase_cons_head]
    · simp [lifecycleLoop]

/-- With positive headroom (`free_margin < leverage`) and a nonzero slot
count, the flip target weight is strictly negative, so the broker reports
the position as short once the flip fills. -/
theorem switchWeight_neg (cfg : AlgoConfig) (hlev : cfg.free_margin < cfg.leverage)
    (hsz : 0 < cfg.managed_symbols_size) : switchWeight cfg < 0 := by
  unfold switchWeight
  have h1 : (0:ℚ) < cfg.leverage - cfg.free_margin := sub_pos.mpr hlev
  have h2 : (0:ℚ) < (cfg.managed_symbols_size : ℚ) := by exact_mod_cast hsz
  have h3 := div_pos h1 h2
  rw [neg_one_mul, neg_div]
  linarith

/-- Effect of one successfully parsed record on the load loop. -/
theorem loadLoop_cons_ok (em : Date → Option (List Ticker)) (es : Finset Ticker)
    (d : Date) (ts : List Ticker) (rs : List RawRecord) :
    loadLoop em es (⟨some d, some ts⟩ :: rs)
      = loadLoop (Function.update em d (some ts)) (es ∪ ts.toFinset) rs := by
  simp only [loadLoop]
  rw [appendTickers_eq d ts _ _ [] (Function.update_same _ _ _)]
  rw [Function.update_idem, List.nil_append]

/-! ## Concrete sample inputs used by the witnesses -/

/-- The `Initialize` defaults together with offsets
`buyDaysBefore = 5`, `sellDaysAfter = 8`, `switchDaysAfter = 3`. -/
def cfgSample : AlgoConfig :=
  { buyDaysBefore := 5, sellDaysAfter := 8, switchDaysAfter := 3 }

/-- Broker state: nothing held, every symbol priced and tradable. -/
def secSample : Ticker → SecurityInfo := fun _ => ⟨false, 1, true⟩

/-- Broker state: every symbol already invested. -/
def secSampleInv : Ticker → SecurityInfo := fun _ => ⟨true, 1, true⟩

/-- An empty earnings index. -/
def idxSample : EarningsIndex := ⟨fun _ => none, ∅⟩

/-- A managed position with earnings date 0 (a Monday of the model
calendar), switch three business days later, liquidation eight. -/
def msSample : ManagedSymbol := ⟨"A", addBDay 0 3, addBDay 0 8⟩

/-- A managed list already at the default capacity of 30. -/
def managedFull : List ManagedSymbol := List.replicate 30 ⟨"A", 0, 0⟩

/-- The spec's §8 example scores `{A:1, B:2, ..., J:10}`. -/
def scoresSample : List (Ticker × ℚ) :=
  [("A", 1), ("B", 2), ("C", 3), ("D", 4), ("E", 5),
   ("F", 6), ("G", 7), ("H", 8), ("I", 9), ("J", 10)]

/-- Trackers with capacity 1 and a full window `[1]`. -/
def dataSample : Ticker → SymbolData := fun _ => ⟨1, [1]⟩

/-! ## Claims -/

/-- **C1, counterexample.**  The claim says a failed load leaves
`instruments_on` unchanged for every pre-load state and malformed feed.  It
fails at this concrete input: the pre-load index maps date 0 to
`["AAPL"]`, the feed is a single record with an unparseable date, and after
the failed load `instruments_on` at date 0 is `[]`, because
`LoadEarningsData` clears `self.earnings` before parsing (line 58) and the
exception aborts the rebuild. -/
theorem C1_not_atomic_counterexample :
    ¬ (instruments_on
          (LoadEarningsData
            ⟨fun d => if d = 0 then some ["AAPL"] else none, {"AAPL"}⟩
            [⟨none, some []⟩]) 0
        = instruments_on
            ⟨fun d => if d = 0 then some ["AAPL"] else none, {"AAPL"}⟩ 0) := by
  decide

/-- **C1, amended.**  Loading is not atomic for the date-to-instruments
mapping, but the derived eligible universe is: when any record of the feed
is malformed, `eligible_universe()` after the failed load equals its value
before it, because `self.earnings_universe` is only reassigned after the
record loop completes (line 84). -/
theorem C1_universe_preserved_on_failed_load (pre : EarningsIndex)
    (feed : List RawRecord) (h : ∃ r ∈ feed, recordMalformed r = true) :
    eligible_universe (LoadEarningsData pre feed) = eligible_universe pre := by
  simp only [LoadEarningsData, eligible_universe]
  rw [loadLoop_fails_of_malformed feed _ _ h]
  simp

/-- Witness for the amended C1 at a concrete pre-load state and feed. -/
theorem C1_universe_preserved_on_failed_load_witness :
    eligible_universe (LoadEarningsData ⟨fun _ => none, {"SPY"}⟩ [⟨none, none⟩])
      = eligible_universe ⟨fun _ => none, {"SPY"}⟩ :=
  C1_universe_preserved_on_failed_load ⟨fun _ => none, {"SPY"}⟩ [⟨none, none⟩]
    ⟨⟨none, none⟩, List.mem_singleton.mpr rfl, rfl⟩

/-- **C10.**  Duplicate feed dates are last-write-wins for the per-date
index: after loading a feed whose two records carry the same date `d`,
`instruments_on d` is exactly the second record's ticker list (the
`self.earnings[date] = []` reset at line 73 discards the first), while
`eligible_universe()` is the union of the tickers of both records (the
accumulating `earnings_set` is never reset between records). -/
theorem C10_duplicate_dates_last_write_wins (pre : EarningsIndex) (d : Date)
    (ts1 ts2 : List Ticker) :
    instruments_on
        (LoadEarningsData pre [⟨some d, some ts1⟩, ⟨some d, some ts2⟩]) d = ts2 ∧
    eligible_universe
        (LoadEarningsData pre [⟨some d, some ts1⟩, ⟨some d, some ts2⟩])
      = ts1.toFinset ∪ ts2.toFinset := by
  unfold LoadEarningsData
  rw [loadLoop_cons_ok, loadLoop_cons_ok]
  simp only [loadLoop]
  constructor
  · simp [instruments_on, Function.update_idem, Function.update_same]
  · simp [eligible_universe]

/-- **C2.**  Lifecycle of a managed position with
`date_to_switch = D + 3` and `date_to_liquidate = D + 8` business days:
before the switch date the tick issues no instruction; in the switch
window, while the broker reports the position long, it issues exactly the
flip-to-short instruction (whose fill leaves the broker direction short, so
later ticks in the window — third conjunct — issue nothing, preventing
duplicate flips); from the liquidation date on it issues the liquidation
and removes the position from the managed set. -/
theorem C2_position_lifecycle (cfg : AlgoConfig)
    (hlev : cfg.free_margin < cfg.leverage) (hsz : 0 < cfg.managed_symbols_size)
    (D curr : Date) (s : Ticker) (pf : Ticker → Dir) :
    (curr < addBDay D 3 →
        OnDataStep cfg curr pf [⟨s, addBDay D 3, addBDay D 8⟩]
          = ([], [⟨s, addBDay D 3, addBDay D 8⟩])) ∧
    (addBDay D 3 ≤ curr → curr < addBDay D 8 → pf s = Dir.long →
        OnDataStep cfg curr pf [⟨s, addBDay D 3, addBDay D 8⟩]
            = ([Instruction.setHoldings s (switchWeight cfg)],
                [⟨s, addBDay D 3, addBDay D 8⟩])
          ∧ applyInstruction pf (Instruction.setHoldings s (switchWeight cfg)) s
              = Dir.short) ∧
    (addBDay D 3 ≤ curr → curr < addBDay D 8 → pf s ≠ Dir.long →
        OnDataStep cfg curr pf [⟨s, addBDay D 3, addBDay D 8⟩]
          = ([], [⟨s, addBDay D 3, addBDay D 8⟩])) ∧
    (addBDay D 8 ≤ curr →
        OnDataStep cfg curr pf [⟨s, addBDay D 3, addBDay D 8⟩]
          = ([Instruction.liquidate s], [])) := by
  have h38 : addBDay D 3 ≤ addBDay D 8 := addBDay_mono D (by norm_num)
  refine ⟨?_, ?_, ?_, ?_⟩
  · intro h1
    have hA : ¬ addBDay D 3 ≤ curr := not_le.mpr h1
    have hB : ¬ addBDay D 8 ≤ curr := not_le.mpr (lt_of_lt_of_le h1 h38)
    simp [OnDataStep_singleton, hA, hB]
  · intro h2 h3 h4
    constructor
    · simp [OnDataStep_singleton, h2, h3, h4]
    · simp [applyInstruction, Function.update_same, switchWeight_neg cfg hlev hsz]
  · intro h2 h3 h4
    have hB : ¬ addBDay D 8 ≤ curr := not_le.mpr h3
    simp [OnDataStep_singleton, h4, hB]
  · intro h4
    have hnc : ¬ curr < addBDay D 8 := not_lt.mpr h4
    simp [OnDataStep_singleton, hnc, h4]

/-- Witness for C2 at the sample position (earnings Monday 0, switch on
day 3, liquidate on day 10) under the default configuration. -/
theorem C2_position_lifecycle_witness :
    OnDataStep cfgSample 0 (fun _ => Dir.long) [msSample] = ([], [msSample]) ∧
    (OnDataStep cfgSample 3 (fun _ => Dir.long) [msSample]
        = ([Instruction.setHoldings "A" (switchWeight cfgSample)], [msSample])
      ∧ applyInstruction (fun _ => Dir.long)
          (Instruction.setHoldings "A" (switchWeight cfgSample)) "A" = Dir.short) ∧
    OnDataStep cfgSample 10 (fun _ => Dir.long) [msSample]
      = ([Instruction.liquidate "A"], []) :=
  ⟨(C2_position_lifecycle cfgSample (by norm_num [cfgSample]) (by norm_num [cfgSample])
      0 0 "A" (fun _ => Dir.long)).1 (by decide),
   (C2_position_lifecycle cfgSample (by norm_num [cfgSample]) (by norm_num [cfgSample])
      0 3 "A" (fun _ => Dir.long)).2.1 (by decide) (by decide) rfl,
   (C2_position_lifecycle cfgSample (by norm_num [cfgSample]) (by norm_num [cfgSample])
      0 10 "A" (fun _ => Dir.long)).2.2.2 (by decide)⟩

/-- **C3.**  Admission control bounds the managed set: starting from the
empty managed list, no sequence of admission (`DaysBefore`) and lifecycle
(`OnData`) events ever pushes its size above `managed_symbols_size`, and an
admission pass run while the list is exactly at capacity is a no-op — it
emits no instruction and admits nobody. -/
theorem C3_capacity (cfg : AlgoConfig) (events : List Event) :
    (runEvents cfg events).length ≤ cfg.managed_symbols_size ∧
    ∀ (t : Date) (idx : EarningsIndex) (selected : List Ticker)
      (sec : Ticker → SecurityInfo) (managed : List ManagedSymbol),
      managed.length = cfg.managed_symbols_size →
      DaysBefore cfg t idx selected sec managed = ([], managed) := by
  constructor
  · exact foldl_runEvent_length_le cfg events [] (Nat.zero_le _)
  · intro t idx selected sec managed h
    unfold DaysBefore
    cases hidx : idx.earnings (earningsDateFor cfg t) with
    | none => rfl
    | some tickers =>
        exact admitLoop_at_capacity cfg tickers sec _ _ selected ([], managed) h

/-- Witness for C3: a concrete event sequence, and an admission pass over a
managed list already holding 30 positions. -/
theorem C3_capacity_witness :
    (runEvents cfgSample [Event.onData 0 (fun _ => Dir.flat)]).length
        ≤ cfgSample.managed_symbols_size ∧
    DaysBefore cfgSample 0 idxSample ["A"] secSample managedFull
      = ([], managedFull) :=
  ⟨(C3_capacity cfgSample [Event.onData 0 (fun _ => Dir.flat)]).1,
   (C3_capacity cfgSample [Event.onData 0 (fun _ => Dir.flat)]).2
      0 idxSample ["A"] secSample managedFull (by decide)⟩

/-- **C4.**  Top-decile selection with at least `quantile_count` scores:
the code's selection equals the spec's description (`bucket_size =
floor(count / quantile_count)` last entries of the sorted list), returns
exactly `bucket_size` instruments, and the underlying sort is ascending by
score, a permutation of the input, and stable (each score class keeps the
input's insertion order) — hence deterministic on identical input. -/
theorem C4_top_decile (quantile : ℕ) (momentum : List (Ticker × ℚ))
    (hq : 0 < quantile) (h : quantile ≤ momentum.length) :
    selectTopDecile quantile momentum = select_top_decile_spec momentum quantile ∧
    (selectTopDecile quantile momentum).length = momentum.length / quantile ∧
    List.Pairwise (fun p q => p.2 ≤ q.2) (sortByScore momentum) ∧
    List.Perm (sortByScore momentum) momentum ∧
    ∀ c : ℚ, (sortByScore momentum).filter (fun p => decide (p.2 = c))
        = momentum.filter (fun p => decide (p.2 = c)) := by
  have hnb : ¬ momentum.length < quantile := not_lt.mpr h
  have hb1 : 1 ≤ momentum.length / quantile := (Nat.one_le_div_iff hq).mpr h
  have hne : momentum.length / quantile ≠ 0 := by omega
  have hlen : ((sortByScore momentum).map Prod.fst).length = momentum.length := by
    rw [List.length_map, (sortByScore_perm momentum).length_eq]
  refine ⟨?_, ?_, sortByScore_pairwise momentum, sortByScore_perm momentum,
    sortByScore_stable momentum⟩
  · simp only [selectTopDecile, select_top_decile_spec, lastSlice,
      if_neg hnb, if_neg hne, hlen]
  · simp only [selectTopDecile, lastSlice, if_neg hnb, if_neg hne,
      List.length_drop, hlen]
    have hles : momentum.length / quantile ≤ momentum.length := Nat.div_le_self _ _
    omega

/-- Witness for C4 on the spec's §8 example scores (ten symbols, scores
1 through 10, `quantile_count = 10`, bucket size 1). -/
theorem C4_top_decile_witness :
    selectTopDecile 10 scoresSample = select_top_decile_spec scoresSample 10 ∧
    (selectTopDecile 10 scoresSample).length = scoresSample.length / 10 :=
  ⟨(C4_top_decile 10 scoresSample (by decide) (by decide)).1,
   (C4_top_decile 10 scoresSample (by decide) (by decide)).2.1⟩

/-- **C5.**  Whenever the configuration contract
`switchDaysAfter ≤ sellDaysAfter` holds, the two dates computed by
`DaysBefore` satisfy `date_to_switch ≤ date_to_liquidate` (both are
business-day offsets from the same earnings date, and the offset arithmetic
is monotone), and therefore every position in the managed list after an
admission pass satisfies the invariant as long as the pre-existing ones
did. -/
theorem C5_switch_le_liquidate (cfg : AlgoConfig)
    (hofs : cfg.switchDaysAfter ≤ cfg.sellDaysAfter) (t : Date)
    (idx : EarningsIndex) (selected : List Ticker) (sec : Ticker → SecurityInfo)
    (managed : List ManagedSymbol)
    (hm : ∀ ms ∈ managed, ms.date_to_switch ≤ ms.date_to_liquidate) :
    dateToSwitch cfg t ≤ dateToLiquidate cfg t ∧
    ∀ ms ∈ (DaysBefore cfg t idx selected sec managed).2,
      ms.date_to_switch ≤ ms.date_to_liquidate := by
  have hkey : dateToSwitch cfg t ≤ dateToLiquidate cfg t :=
    addBDay_mono (earningsDateFor cfg t) hofs
  refine ⟨hkey, ?_⟩
  intro ms hms
  unfold DaysBefore at hms
  cases hidx : idx.earnings (earningsDateFor cfg t) with
  | none =>
      simp only [hidx] at hms
      exact hm ms hms
  | some tickers =>
      simp only [hidx] at hms
      rcases admitLoop_mem_managed cfg tickers sec _ _ selected ([], managed) ms hms
        with hold | hnew
      · exact hm ms hold
      · rw [hnew.1, hnew.2.1]
        exact hkey

/-- Witness for C5 under the sample configuration (offsets 3 ≤ 8). -/
theorem C5_switch_le_liquidate_witness :
    dateToSwitch cfgSample 0 ≤ dateToLiquidate cfgSample 0 :=
  (C5_switch_le_liquidate cfgSample (by decide) 0 idxSample ["A"] secSample []
    (by intro ms hms; exact absurd hms (List.not_mem_nil ms))).1

/-- **C6.**  With fewer scores than `quantile_count` the selection fails
softly: it returns the empty selection (the code sets
`self.selected_symbols = []` and returns `Universe.Unchanged`) instead of
raising. -/
theorem C6_soft_failure (quantile : ℕ) (momentum : List (Ticker × ℚ))
    (h : momentum.length < quantile) :
    selectTopDecile quantile momentum = [] := by
  unfold selectTopDecile
  rw [if_pos h]

/-- Witness for C6: the empty score map against `quantile_count = 10`. -/
theorem C6_soft_failure_witness : selectTopDecile 10 [] = [] :=
  C6_soft_failure 10 [] (by decide)

/-- **C7.**  Both directions use the same sizing formula: the flip-to-short
target weight of `OnData` (line 174) is exactly the negation of the long
entry target weight of `DaysBefore` (line 158),
`(leverage - free_margin) / managed_symbols_size`. -/
theorem C7_symmetric_sizing (cfg : AlgoConfig) :
    switchWeight cfg = -(entryWeight cfg) := by
  unfold switchWeight entryWeight
  ring

/-- **C8.**  `NotReadyError` is unreachable at the orchestrator level: the
momentum snapshot of line 127 only queries `performance()` on trackers the
same comprehension has just filtered with `is_ready()`, so no entry of the
snapshot is the not-ready error. -/
theorem C8_not_ready_unreachable (data : Ticker → SymbolData)
    (selected : List Ticker) (s : Ticker) (e : Except TrackerError ℚ)
    (h : (s, e) ∈ buildMomentum data selected) :
    e ≠ Except.error TrackerError.NotReadyError := by
  unfold buildMomentum at h
  rcases List.mem_map.mp h with ⟨s', hs', heq⟩
  have hr : (data s').is_ready = true := (List.mem_filter.mp hs').2
  cases heq
  simp only [SymbolData.performance, hr, if_true]
  split
  · intro hc
    exact Except.noConfusion hc (fun he => TrackerError.noConfusion he)
  · intro hc
    exact Except.noConfusion hc

/-- Witness for C8: a ready tracker of capacity 1 queried through the
snapshot. -/
theorem C8_not_ready_unreachable_witness :
    SymbolData.performance (dataSample "A")
      ≠ Except.error TrackerError.NotReadyError :=
  C8_not_ready_unreachable dataSample ["A"] "A"
    (SymbolData.performance (dataSample "A")) (List.Mem.head _)

/-- **C9.**  Implicit admission condition: a symbol the broker reports as
already invested is skipped by `DaysBefore` — no entry order is emitted for
it and no managed record is created for it (any managed record with that
symbol was already in the list). -/
theorem C9_skip_invested (cfg : AlgoConfig) (t : Date) (idx : EarningsIndex)
    (selected : List Ticker) (sec : Ticker → SecurityInfo)
    (managed : List ManagedSymbol) (s : Ticker)
    (hinv : (sec s).invested = true) :
    (∀ w : ℚ, Instruction.setHoldings s w
        ∉ (DaysBefore cfg t idx selected sec managed).1) ∧
    (∀ ms ∈ (DaysBefore cfg t idx selected sec managed).2,
        ms.symbol = s → ms ∈ managed) := by
  constructor
  · intro w hw
    unfold DaysBefore at hw
    cases hidx : idx.earnings (earningsDateFor cfg t) with
    | none =>
        simp only [hidx] at hw
        exact absurd hw (List.not_mem_nil _)
    | some tickers =>
        simp only [hidx] at hw
        rcases admitLoop_mem_instr cfg tickers sec _ _ selected ([], managed) _ hw
          with habs | ⟨s', heq, hninv⟩
        · exact absurd habs (List.not_mem_nil _)
        · have hss : s = s' := by
            injection heq with h1 h2
          rw [← hss] at hninv
          rw [hinv] at hninv
          exact Bool.noConfusion hninv
  · intro ms hms hsym
    unfold DaysBefore at hms
    cases hidx : idx.earnings (earningsDateFor cfg t) with
    | none =>
        simp only [hidx] at hms
        exact hms
    | some tickers =>
        simp only [hidx] at hms
        rcases admitLoop_mem_managed cfg tickers sec _ _ selected ([], managed) ms hms
          with hold | hnew
        · exact hold
        · rw [hsym] at hnew
          rw [hinv] at hnew
          exact Bool.noConfusion hnew.2.2

/-- Witness for C9: an invested symbol produces no entry order. -/
theorem C9_skip_invested_witness :
    Instruction.setHoldings "A" 1
      ∉ (DaysBefore cfgSample 0 idxSample ["A"] secSampleInv []).1 :=
  (C9_skip_invested cfgSample 0 idxSample ["A"] secSampleInv [] "A" rfl).1 1
